import Mathlib

/-!
# Word cloud for meetings: the frequency table of `src/js/wordcloud.js`

A shallow embedding of the table `wordCountData`, of the per-utterance update
`updateWordCountData` (merge loop, aging loop, eviction) and of the size mapping
`getWordArray`.

Modelling conventions.
* JavaScript numbers that hold counts and elapsed cycles are natural numbers
  (they start at non-negative integers and only `+= 1` and `= 0` touch them).
* The array `wordCountData` is a `List Entry`; the index loop of the merge is kept
  as an index loop, because the array grows while it is scanned.
* The tokenizer `kuromoji` is external: `updateWordCountData` takes the token
  sequence `tokenizer.tokenize(text)`; of a token only `pos` and `basic_form` are read.
* `d3.max` and `d3.scaleLinear` come from the library d3; they are modelled after the
  library, sizes in exact rational arithmetic.
-/

namespace WordCloud

/-- One element of `wordCountData`: `{word, count, elapsed}`. -/
structure Entry where
  word : String
  count : Nat
  elapsed : Nat
deriving DecidableEq

/-- The fields of a kuromoji token that `updateWordCountData` reads. -/
structure Token where
  pos : String
  basic_form : String
deriving DecidableEq

/-- The initial value of `wordCountData` (lines 12-14). -/
def wordCountData : List Entry := [⟨"", 1, 1⟩]

/-- The list `stopWords` (lines 21-26), duplicates included. -/
def stopWords : List String :=
  ["てる", "いる", "なる", "れる", "する", "ある", "こと", "これ",
   "さん", "して", "くれる", "やる", "くださる", "そう", "せる", "した", "思う",
   "それ", "ここ", "ちゃん", "くん", "", "て", "に", "を", "は", "ん",
   "の", "が", "と", "た", "し", "で", "ない", "も", "な", "い", "か", "ので", "よう", "", "*", "いい",
   "まあ", "かも", "くる", "からい", "さ", "っぽい", "あと", "ため", "られる",
   "わけ", "しまう", "ける", "てる子", "あれ", "ば", "あれ", "やつ"]

/-- The part-of-speech test of line 258. -/
def posCounted (pos : String) : Bool :=
  pos == "名詞" || pos == "動詞" || pos == "形容詞" || pos == "副詞"

/-- A token is admitted when it passes the stop-word test of line 253 and the
part-of-speech test of line 258. -/
def admitted (word : Token) : Bool :=
  !(stopWords.contains word.basic_form) && posCounted word.pos

/-- The measure that makes the merge loop terminate: the distance of `i` to the end of the
array, plus one as long as the last element does not hold `basic`. -/
def mergeMeasure (basic : String) (data : List Entry) (i : Nat) : Nat :=
  (data.length - i) + (if (data.getLast?.map Entry.word) = some basic then 0 else 1)

/-- The loop of lines 259-272 from index `i` on, for the basic form `basic`:
`for (; i < wordCountData.length; i++)`. A match increments the count, resets
`elapsed` and breaks. At the last index a miss pushes `{word: basic, count: 1, elapsed: 0}`;
the loop then goes on to the next index, as the length is read again by the loop test. -/
def mergeLoop (basic : String) (data : List Entry) (i : Nat) : List Entry :=
  if h : i < data.length then
    if hw : (data.get ⟨i, h⟩).word = basic then
      data.set i ⟨(data.get ⟨i, h⟩).word, (data.get ⟨i, h⟩).count + 1, 0⟩
    else if hlast : i = data.length - 1 then
      mergeLoop basic (data ++ [⟨basic, 1, 0⟩]) (i + 1)
    else
      mergeLoop basic data (i + 1)
  else data
termination_by mergeMeasure basic data i
decreasing_by
  · unfold mergeMeasure
    have h1 : data.getLast? = some (data.get ⟨i, h⟩) := by
      rw [List.getLast?_eq_getElem?]
      subst hlast
      simp [List.getElem?_eq_getElem h]
    have h2 : ¬ (data.getLast?.map Entry.word = some basic) := by
      rw [h1]
      simpa using hw
    rw [if_neg h2]
    simp
  · unfold mergeMeasure
    omega

/-- The callback of `tokens.forEach` (lines 247-274) on the table `data`. -/
def processToken (data : List Entry) (word : Token) : List Entry :=
  if stopWords.contains word.basic_form then data
  else if posCounted word.pos then mergeLoop word.basic_form data 0
  else data

/-- The function `d3.max(array, accessor)` on the accessor's values: the first value, replaced by
each later value that is greater; `none` (JavaScript `undefined`) for the empty array. -/
def d3max (values : List Nat) : Option Nat :=
  values.foldl
    (fun max value =>
      match max with
      | none => some value
      | some m => if m < value then some value else some m)
    none

/-- The loop of lines 276-280: every `elapsed` is incremented and the counts are summed
into `countSum`, which starts at 0. -/
def ageLoop (data : List Entry) : List Entry × Nat :=
  (data.map (fun e => ⟨e.word, e.count, e.elapsed + 1⟩),
   data.foldl (fun countSum e => countSum + e.count) 0)

/-- The comparison `element["elapsed"] < maxElapsedTime`, which is false when
`maxElapsedTime` is `undefined`. -/
def ltMax (elapsed : Nat) (maxElapsedTime : Option Nat) : Bool :=
  match maxElapsedTime with
  | none => false
  | some m => decide (elapsed < m)

/-- The eviction of lines 283-292 on the aged table and the sum of the counts. -/
def evict (data : List Entry) (countSum : Nat) : List Entry :=
  if countSum > 40 then
    let maxElapsedTime := d3max (data.map Entry.elapsed)
    data.filter (fun element => ltMax element.elapsed maxElapsedTime)
  else data

/-- The merge of a whole batch: `tokens.forEach` over the table. -/
def mergeTokens (data : List Entry) (tokens : List Token) : List Entry :=
  tokens.foldl processToken data

/-- One cycle of `updateWordCountData` (lines 246-292) on the table `data`, for the
tokens that the tokenizer returned: merge, age, evict. The result is the new value of
`wordCountData`. -/
def updateWordCountData (data : List Entry) (tokens : List Token) : List Entry :=
  let merged := mergeTokens data tokens
  let aged := ageLoop merged
  evict aged.1 aged.2

/-- A record handed to the layout by `getWordArray`: `{text, size, elapsed}`. The size is
`none` when JavaScript computes `NaN` (a scale whose domain holds `undefined`). -/
structure WordRecord where
  text : String
  size : Option ℚ
  elapsed : Nat
deriving DecidableEq

/-- The scale `d3.scaleLinear().domain([d0, d1]).range([r0, r1])` at `x`, for `d0 ≤ d1`:
`x` is normalized to `(x - d0) / (d1 - d0)` and the range is interpolated as
`r0 * (1 - t) + r1 * t`. When `d1 - d0` is 0 the library normalizes every `x` to a constant
that depends on its version (0 or 1/2); that constant is the parameter `flat`. -/
def scaleLinear (flat d0 d1 r0 r1 x : ℚ) : ℚ :=
  let t := if d1 - d0 = 0 then flat else (x - d0) / (d1 - d0)
  r0 * (1 - t) + r1 * t

/-- The function `getWordArray` (lines 205-225). -/
def getWordArray (flat : ℚ) (data : List Entry) : List WordRecord :=
  let maxFontSize : ℚ := 130
  let minFontSize : ℚ := 10
  let countMax := d3max (data.map Entry.count)
  let sizeScale : Nat → Option ℚ := fun x =>
    match countMax with
    | none => none
    | some m => some (scaleLinear flat 0 m minFontSize maxFontSize x)
  data.map (fun d => ⟨d.word, sizeScale d.count, d.elapsed⟩)

/-- The states of `wordCountData` that cycles of `updateWordCountData` reach from the
initial table. -/
inductive Reachable : List Entry → Prop
  | init : Reachable wordCountData
  | cycle (data : List Entry) (tokens : List Token) :
      Reachable data → Reachable (updateWordCountData data tokens)

/-- The effect of the merge loop on the part of the array from the loop index on, by
recursion on that part: the first entry holding `basic` is incremented and reset; when
the scan reaches the last entry without a match the pushed entry is visited next, so it
ends with count 2; on the empty array the loop body never runs. Proved equal to
`mergeLoop` in `mergeLoop_append`. -/
def mergeScan (basic : String) : List Entry → List Entry
  | [] => []
  | e :: rest =>
    if e.word = basic then ⟨e.word, e.count + 1, 0⟩ :: rest
    else
      match rest with
      | [] => [e, ⟨basic, 2, 0⟩]
      | _ :: _ => e :: mergeScan basic rest

/-- The callback of `tokens.forEach` with `mergeScan` for the loop. -/
def processTokenScan (data : List Entry) (word : Token) : List Entry :=
  if stopWords.contains word.basic_form then data
  else if posCounted word.pos then mergeScan word.basic_form data
  else data

/-- The number of admitted tokens of a batch whose basic form is `basic`. -/
def admittedCount (basic : String) (tokens : List Token) : Nat :=
  (tokens.filter (fun w => admitted w && decide (w.basic_form = basic))).length

/-- The sum of all counts of a table. -/
def countTotal (data : List Entry) : Nat :=
  (data.map Entry.count).sum

/-- The entry `e` is among the stalest of `data`: no entry of `data` has a greater `elapsed`. -/
def isStalest (data : List Entry) (e : Entry) : Prop :=
  ∀ x ∈ data, x.elapsed ≤ e.elapsed

instance (data : List Entry) (e : Entry) : Decidable (isStalest data e) := by
  unfold isStalest
  infer_instance

/-- An entry after a match of the merge loop: count plus one, `elapsed` 0. -/
def bump (e : Entry) : Entry :=
  ⟨e.word, e.count + 1, 0⟩

/-- An entry after the aging loop. -/
def aged (e : Entry) : Entry :=
  ⟨e.word, e.count, e.elapsed + 1⟩

/-- Two tokens used in examples: the nouns 猫 and 犬. -/
def neko : Token := ⟨"名詞", "猫"⟩

def inu : Token := ⟨"名詞", "犬"⟩

/-! ## The merge loop -/

theorem get_append_cons (pre : List Entry) (e : Entry) (rest : List Entry)
    (h : pre.length < (pre ++ e :: rest).length) :
    (pre ++ e :: rest).get ⟨pre.length, h⟩ = e := by
  induction pre with
  | nil => rfl
  | cons p ps ih => simpa using ih (by simp)

theorem set_append_cons (pre : List Entry) (e x : Entry) (rest : List Entry) :
    (pre ++ e :: rest).set pre.length x = pre ++ x :: rest := by
  induction pre with
  | nil => rfl
  | cons p ps ih => simp [ih]

theorem mergeLoop_hit (basic : String) (pre : List Entry) (e : Entry) (rest : List Entry)
    (hw : e.word = basic) :
    mergeLoop basic (pre ++ e :: rest) pre.length
      = pre ++ ⟨e.word, e.count + 1, 0⟩ :: rest := by
  rw [mergeLoop]
  have hlt : pre.length < (pre ++ e :: rest).length := by simp
  rw [dif_pos hlt, get_append_cons, dif_pos hw, set_append_cons]

theorem mergeLoop_miss (basic : String) (pre : List Entry) (e : Entry) (rest : List Entry)
    (hw : ¬ e.word = basic) :
    mergeLoop basic (pre ++ e :: rest) pre.length
      = if rest = [] then mergeLoop basic (pre ++ [e] ++ [⟨basic, 1, 0⟩]) (pre.length + 1)
        else mergeLoop basic (pre ++ e :: rest) (pre.length + 1) := by
  rw [mergeLoop]
  have hlt : pre.length < (pre ++ e :: rest).length := by simp
  rw [dif_pos hlt, get_append_cons, dif_neg hw]
  cases rest with
  | nil =>
    have hl : pre.length = (pre ++ [e]).length - 1 := by simp
    rw [dif_pos hl]
    simp
  | cons e2 rest2 =>
    have hl : ¬ pre.length = (pre ++ e :: e2 :: rest2).length - 1 := by simp
    rw [dif_neg hl]
    simp

theorem mergeLoop_append (basic : String) (suf pre : List Entry) :
    mergeLoop basic (pre ++ suf) pre.length = pre ++ mergeScan basic suf := by
  induction suf generalizing pre with
  | nil =>
    rw [mergeLoop]
    simp [mergeScan]
  | cons e rest ih =>
    by_cases hw : e.word = basic
    · rw [mergeLoop_hit basic pre e rest hw]
      simp [mergeScan, hw]
    · rw [mergeLoop_miss basic pre e rest hw]
      cases rest with
      | nil =>
        have h2 := mergeLoop_hit basic (pre ++ [e]) ⟨basic, 1, 0⟩ [] rfl
        simp only [List.length_append, List.length_singleton] at h2
        simp only [if_true, h2]
        simp [mergeScan, hw]
      | cons e2 rest2 =>
        have h3 := ih (pre ++ [e])
        simp only [List.length_append, List.length_singleton, List.append_assoc,
          List.singleton_append] at h3
        simp only [if_false, h3, reduceCtorEq]
        simp [mergeScan, hw]

theorem mergeLoop_eq (basic : String) (data : List Entry) :
    mergeLoop basic data 0 = mergeScan basic data := by
  exact mergeLoop_append basic data []

theorem processToken_eq (data : List Entry) (word : Token) :
    processToken data word = processTokenScan data word := by
  unfold processToken processTokenScan
  rw [mergeLoop_eq]

theorem mergeTokens_eq (data : List Entry) (tokens : List Token) :
    mergeTokens data tokens = tokens.foldl processTokenScan data := by
  unfold mergeTokens
  congr 1
  funext d w
  exact processToken_eq d w

theorem mem_stopWords_iff (basic : String) :
    stopWords.contains basic = true ↔ basic ∈ stopWords := by
  simp

theorem admitted_iff (w : Token) :
    admitted w = true ↔
      w.basic_form ∉ stopWords ∧
        (w.pos = "名詞" ∨ w.pos = "動詞" ∨ w.pos = "形容詞" ∨ w.pos = "副詞") := by
  unfold admitted posCounted
  rw [Bool.and_eq_true, Bool.not_eq_true', ← Bool.not_eq_true, mem_stopWords_iff]
  simp [or_assoc]

theorem processToken_admitted (data : List Entry) (w : Token) (h : admitted w = true) :
    processToken data w = mergeScan w.basic_form data := by
  rw [processToken_eq]
  unfold admitted at h
  rw [Bool.and_eq_true, Bool.not_eq_true', ← Bool.not_eq_true] at h
  unfold processTokenScan
  rw [if_neg h.1, if_pos h.2]

theorem processToken_rejected (data : List Entry) (w : Token) (h : admitted w = false) :
    processToken data w = data := by
  rw [processToken_eq]
  unfold processTokenScan
  by_cases h1 : stopWords.contains w.basic_form = true
  · rw [if_pos h1]
  · rw [if_neg h1]
    by_cases h2 : posCounted w.pos = true
    · exfalso
      unfold admitted at h
      rw [Bool.not_eq_true] at h1
      rw [h1, h2] at h
      exact absurd h (by decide)
    · rw [if_neg h2]

theorem mergeScan_nil (b : String) : mergeScan b [] = [] := rfl

theorem mergeScan_hit (b : String) (e : Entry) (rest : List Entry) (h : e.word = b) :
    mergeScan b (e :: rest) = bump e :: rest := by
  unfold mergeScan
  rw [if_pos h]
  rfl

theorem mergeScan_miss_last (b : String) (e : Entry) (h : ¬ e.word = b) :
    mergeScan b [e] = [e, ⟨b, 2, 0⟩] := by
  unfold mergeScan
  rw [if_neg h]

theorem mergeScan_miss (b : String) (e e2 : Entry) (rest : List Entry) (h : ¬ e.word = b) :
    mergeScan b (e :: e2 :: rest) = e :: mergeScan b (e2 :: rest) := by
  rw [mergeScan, if_neg h]

theorem mergeScan_not_mem (b : String) (t : List Entry) (hne : t ≠ [])
    (h : ∀ e ∈ t, e.word ≠ b) : mergeScan b t = t ++ [⟨b, 2, 0⟩] := by
  induction t with
  | nil => exact absurd rfl hne
  | cons e rest ih =>
    have he : e.word ≠ b := h e (List.mem_cons_self _ _)
    cases rest with
    | nil => rw [mergeScan_miss_last b e he]; rfl
    | cons e2 rest2 =>
      rw [mergeScan_miss b e e2 rest2 he,
        ih (List.cons_ne_nil _ _) (fun x hx => h x (List.mem_cons_of_mem _ hx))]
      rfl

theorem map_bump_not_mem (b : String) (t : List Entry) (h : ∀ e ∈ t, e.word ≠ b) :
    t.map (fun e => if e.word = b then bump e else e) = t := by
  induction t with
  | nil => rfl
  | cons e rest ih =>
    have he : e.word ≠ b := h e (List.mem_cons_self _ _)
    rw [List.map_cons, if_neg he, ih (fun x hx => h x (List.mem_cons_of_mem _ hx))]

theorem mergeScan_mem_nodup (b : String) (t : List Entry)
    (hnd : (t.map Entry.word).Nodup) (hmem : b ∈ t.map Entry.word) :
    mergeScan b t = t.map (fun e => if e.word = b then bump e else e) := by
  induction t with
  | nil => simp at hmem
  | cons e rest ih =>
    rw [List.map_cons, List.nodup_cons] at hnd
    by_cases he : e.word = b
    · have hrest : ∀ x ∈ rest, x.word ≠ b := by
        intro x hx hxb
        exact hnd.1 (by rw [he, ← hxb]; exact List.mem_map_of_mem _ hx)
      rw [mergeScan_hit b e rest he, List.map_cons, if_pos he, map_bump_not_mem b rest hrest]
    · have hm : b ∈ rest.map Entry.word := by
        rw [List.map_cons, List.mem_cons] at hmem
        rcases hmem with h | h
        · exact absurd h.symm he
        · exact h
      cases rest with
      | nil => simp at hm
      | cons e2 rest2 =>
        rw [mergeScan_miss b e e2 rest2 he, ih hnd.2 hm]
        conv_rhs => rw [List.map_cons, if_neg he]

theorem mergeScan_words (b : String) (t : List Entry) :
    (mergeScan b t).map Entry.word =
      if t = [] then [] else if b ∈ t.map Entry.word then t.map Entry.word
      else t.map Entry.word ++ [b] := by
  induction t with
  | nil => rfl
  | cons e rest ih =>
    rw [if_neg (List.cons_ne_nil _ _)]
    by_cases he : e.word = b
    · rw [mergeScan_hit b e rest he, if_pos (by simp [he])]
      rfl
    · have hb : ¬ b = e.word := fun h => he h.symm
      cases rest with
      | nil =>
        rw [mergeScan_miss_last b e he, if_neg (by simpa using hb)]
        rfl
      | cons e2 rest2 =>
        rw [mergeScan_miss b e e2 rest2 he, List.map_cons, ih,
          if_neg (List.cons_ne_nil _ _)]
        by_cases hm : b ∈ (e2 :: rest2).map Entry.word
        · rw [if_pos hm, if_pos (by rw [List.map_cons]; exact List.mem_cons_of_mem _ hm)]
          rfl
        · rw [if_neg hm, if_neg (by
            rw [List.map_cons, List.mem_cons]
            exact fun h => h.elim hb hm)]
          rfl

theorem mergeScan_nodup (b : String) (t : List Entry) (hnd : (t.map Entry.word).Nodup) :
    ((mergeScan b t).map Entry.word).Nodup := by
  rw [mergeScan_words]
  split
  · exact List.nodup_nil
  · split
    · exact hnd
    · rename_i h
      exact List.Nodup.append hnd (List.nodup_singleton b) (by simpa using h)

/-! ## Aging and eviction -/

theorem foldl_count (l : List Entry) (a : Nat) :
    l.foldl (fun countSum e => countSum + e.count) a = a + countTotal l := by
  induction l generalizing a with
  | nil => simp [countTotal]
  | cons e rest ih =>
    rw [List.foldl_cons, ih]
    simp only [countTotal, List.map_cons, List.sum_cons]
    omega

theorem ageLoop_fst (data : List Entry) : (ageLoop data).1 = data.map aged := rfl

theorem countTotal_map_aged (data : List Entry) : countTotal (data.map aged) = countTotal data := by
  unfold countTotal
  rw [List.map_map]
  rfl

theorem ageLoop_snd (data : List Entry) : (ageLoop data).2 = countTotal data := by
  unfold ageLoop
  rw [foldl_count]
  omega

theorem d3max_fold (a : Nat) (xs : List Nat) :
    ∃ m, xs.foldl
        (fun max value =>
          match max with
          | none => some value
          | some m => if m < value then some value else some m)
        (some a) = some m ∧ a ≤ m ∧ (∀ y ∈ xs, y ≤ m) ∧ (m = a ∨ m ∈ xs) := by
  induction xs generalizing a with
  | nil => exact ⟨a, rfl, le_refl a, by simp, Or.inl rfl⟩
  | cons x rest ih =>
    rw [List.foldl_cons]
    by_cases h : a < x
    · simp only [h, if_true]
      obtain ⟨m, h1, h2, h3, h4⟩ := ih x
      refine ⟨m, h1, by omega, ?_, ?_⟩
      · intro y hy
        rcases List.mem_cons.mp hy with rfl | hy
        · exact h2
        · exact h3 y hy
      · rcases h4 with rfl | h4
        · exact Or.inr (List.mem_cons_self _ _)
        · exact Or.inr (List.mem_cons_of_mem _ h4)
    · simp only [h, if_false]
      obtain ⟨m, h1, h2, h3, h4⟩ := ih a
      refine ⟨m, h1, h2, ?_, ?_⟩
      · intro y hy
        rcases List.mem_cons.mp hy with rfl | hy
        · omega
        · exact h3 y hy
      · rcases h4 with rfl | h4
        · exact Or.inl rfl
        · exact Or.inr (List.mem_cons_of_mem _ h4)

theorem d3max_cons (x : Nat) (xs : List Nat) :
    ∃ m, d3max (x :: xs) = some m ∧ (∀ y ∈ x :: xs, y ≤ m) ∧ m ∈ x :: xs := by
  obtain ⟨m, h1, h2, h3, h4⟩ := d3max_fold x xs
  refine ⟨m, h1, ?_, ?_⟩
  · intro y hy
    rcases List.mem_cons.mp hy with rfl | hy
    · exact h2
    · exact h3 y hy
  · rcases h4 with rfl | h4
    · exact List.mem_cons_self _ _
    · exact List.mem_cons_of_mem _ h4

theorem evict_eq_filter (t : List Entry) :
    evict t (countTotal t)
      = t.filter (fun e => !(decide (40 < countTotal t) && decide (isStalest t e))) := by
  unfold evict
  by_cases h : countTotal t > 40
  · rw [if_pos h]
    cases t with
    | nil => rfl
    | cons e0 rest =>
      obtain ⟨m, h1, h2, h3⟩ := d3max_cons e0.elapsed (rest.map Entry.elapsed)
      rw [← List.map_cons] at h1 h2 h3
      simp only [h1]
      apply List.filter_congr
      intro e he
      have hle : e.elapsed ≤ m := h2 _ (List.mem_map_of_mem _ he)
      obtain ⟨x, hx, hxm⟩ := List.mem_map.mp h3
      have hiff : isStalest (e0 :: rest) e ↔ ¬ e.elapsed < m := by
        constructor
        · intro hs
          have := hs x hx
          omega
        · intro hn y hy
          have := h2 _ (List.mem_map_of_mem Entry.elapsed hy)
          omega
      have h40 : 40 < countTotal (e0 :: rest) := h
      by_cases hlt : e.elapsed < m
      · simp [ltMax, hlt, hiff]
      · simp [ltMax, hlt, hiff, h40]
  · rw [if_neg h]
    have h40 : ¬ 40 < countTotal t := h
    simp [h40]

theorem evict_sublist (t : List Entry) (n : Nat) : List.Sublist (evict t n) t := by
  unfold evict
  split
  · exact List.filter_sublist _
  · exact List.Sublist.refl _

theorem mergeTokens_rejected (data : List Entry) (tokens : List Token)
    (h : ∀ w ∈ tokens, admitted w = false) : mergeTokens data tokens = data := by
  unfold mergeTokens
  induction tokens generalizing data with
  | nil => rfl
  | cons w ws ih =>
    rw [List.foldl_cons, processToken_rejected data w (h w (List.mem_cons_self _ _))]
    exact ih data (fun x hx => h x (List.mem_cons_of_mem _ hx))

theorem updateWordCountData_eq (data : List Entry) (tokens : List Token) :
    updateWordCountData data tokens
      = evict ((mergeTokens data tokens).map aged)
          (countTotal ((mergeTokens data tokens).map aged)) := by
  unfold updateWordCountData
  simp only [ageLoop_fst, ageLoop_snd, countTotal_map_aged]

/-- C3: the eviction step removes an entry exactly when the counts sum to more than 40
and the entry's `elapsed` is the maximum of the table; the other entries are kept, unchanged
and in order. This holds for the step on any table with its sum (first part), and the cycle
applies the step to the merged and aged table with the sum the aging loop computed (second
part). A sum of exactly 40 removes nothing, and over budget the `elapsed` values
`[1,1,3,5,5]` become `[1,1,3]`. -/
theorem evict_removes_exactly_stalest (t : List Entry) (tokens : List Token) :
    evict t (countTotal t)
        = t.filter (fun e => !(decide (40 < countTotal t) && decide (isStalest t e)))
    ∧ updateWordCountData t tokens
        = ((mergeTokens t tokens).map aged).filter (fun e =>
            !(decide (40 < countTotal ((mergeTokens t tokens).map aged))
              && decide (isStalest ((mergeTokens t tokens).map aged) e)))
    ∧ (ageLoop t).2 = countTotal (ageLoop t).1
    ∧ evict [⟨"a", 20, 1⟩, ⟨"b", 20, 2⟩] 40 = [⟨"a", 20, 1⟩, ⟨"b", 20, 2⟩]
    ∧ evict [⟨"a", 9, 1⟩, ⟨"b", 9, 1⟩, ⟨"c", 9, 3⟩, ⟨"d", 9, 5⟩, ⟨"e", 9, 5⟩] 45
        = [⟨"a", 9, 1⟩, ⟨"b", 9, 1⟩, ⟨"c", 9, 3⟩] := by
  refine ⟨evict_eq_filter t, ?_, ?_, by decide, by decide⟩
  · rw [updateWordCountData_eq, evict_eq_filter]
  · rw [ageLoop_fst, ageLoop_snd, countTotal_map_aged]

/-! ## A cycle without admitted tokens -/

theorem admitted_false_of_rejected (w : Token)
    (h : w.basic_form ∈ stopWords ∨
      ¬ (w.pos = "名詞" ∨ w.pos = "動詞" ∨ w.pos = "形容詞" ∨ w.pos = "副詞")) :
    admitted w = false := by
  rw [← Bool.not_eq_true, admitted_iff]
  intro hadm
  rcases h with h | h
  · exact hadm.1 h
  · exact h hadm.2

/-- C7: when no token of the batch is admissible (its basic form is a stop word or its
part of speech is none of noun, verb, adjective, adverb; the empty batch included), one cycle
is the eviction applied to the table with every `elapsed` incremented: the result is a
sublist of the table aged by one (no entry added, no word or count changed, each kept entry
one cycle older), and when the counts sum to at most 40 nothing is removed. -/
theorem updateWordCountData_no_admitted (data : List Entry) (tokens : List Token)
    (h : ∀ w ∈ tokens, w.basic_form ∈ stopWords ∨
      ¬ (w.pos = "名詞" ∨ w.pos = "動詞" ∨ w.pos = "形容詞" ∨ w.pos = "副詞")) :
    mergeTokens data tokens = data
    ∧ List.Sublist (updateWordCountData data tokens)
        (data.map (fun e => ⟨e.word, e.count, e.elapsed + 1⟩))
    ∧ (countTotal data ≤ 40 →
        updateWordCountData data tokens
          = data.map (fun e => ⟨e.word, e.count, e.elapsed + 1⟩)) := by
  have hm : mergeTokens data tokens = data :=
    mergeTokens_rejected data tokens (fun w hw => admitted_false_of_rejected w (h w hw))
  have hu : updateWordCountData data tokens
      = evict (data.map aged) (countTotal (data.map aged)) := by
    rw [updateWordCountData_eq, hm]
  refine ⟨hm, ?_, ?_⟩
  · rw [hu]
    exact evict_sublist _ _
  · intro h40
    rw [hu, countTotal_map_aged]
    unfold evict
    rw [if_neg (by omega)]
    rfl

theorem updateWordCountData_no_admitted_witness :
    (∀ w ∈ [(⟨"助詞", "は"⟩ : Token), ⟨"名詞", "こと"⟩, ⟨"記号", "猫"⟩],
        w.basic_form ∈ stopWords ∨
          ¬ (w.pos = "名詞" ∨ w.pos = "動詞" ∨ w.pos = "形容詞" ∨ w.pos = "副詞"))
    ∧ updateWordCountData [⟨"", 1, 1⟩, ⟨"猫", 2, 1⟩]
        [⟨"助詞", "は"⟩, ⟨"名詞", "こと"⟩, ⟨"記号", "猫"⟩]
        = [⟨"", 1, 2⟩, ⟨"猫", 2, 2⟩] :=
  ⟨by decide,
   (updateWordCountData_no_admitted [⟨"", 1, 1⟩, ⟨"猫", 2, 1⟩]
      [⟨"助詞", "は"⟩, ⟨"名詞", "こと"⟩, ⟨"記号", "猫"⟩] (by decide)).2.2 (by decide)⟩

/-! ## Merging one occurrence of a known term -/

/-- C4: on a table with pairwise distinct words, merging one occurrence of an admitted
term that the table already holds changes exactly the entries holding that term, to
count plus one and `elapsed` 0; exactly one entry holds it; the number of entries, their
order and every other entry are unchanged. -/
theorem processToken_known_term (data : List Entry) (w : Token)
    (hnd : (data.map Entry.word).Nodup) (hadm : admitted w = true)
    (hmem : w.basic_form ∈ data.map Entry.word) :
    processToken data w
        = data.map (fun e => if e.word = w.basic_form then ⟨e.word, e.count + 1, 0⟩ else e)
    ∧ (processToken data w).length = data.length
    ∧ (data.filter (fun e => decide (e.word = w.basic_form))).length = 1 := by
  have h1 : processToken data w
      = data.map (fun e => if e.word = w.basic_form then ⟨e.word, e.count + 1, 0⟩ else e) := by
    rw [processToken_admitted data w hadm, mergeScan_mem_nodup w.basic_form data hnd hmem]
    rfl
  refine ⟨h1, by rw [h1, List.length_map], ?_⟩
  have hc : (data.map Entry.word).count w.basic_form = 1 :=
    List.count_eq_one_of_mem hnd hmem
  rw [List.count_eq_countP, List.countP_map, List.countP_eq_length_filter] at hc
  rw [← hc]
  congr 1

theorem processToken_known_term_witness :
    ([(⟨"", 1, 1⟩ : Entry), ⟨"猫", 2, 3⟩, ⟨"犬", 1, 2⟩].map Entry.word).Nodup
    ∧ admitted neko = true
    ∧ processToken [⟨"", 1, 1⟩, ⟨"猫", 2, 3⟩, ⟨"犬", 1, 2⟩] neko
        = [⟨"", 1, 1⟩, ⟨"猫", 3, 0⟩, ⟨"犬", 1, 2⟩] :=
  ⟨by decide, by decide,
   (processToken_known_term [⟨"", 1, 1⟩, ⟨"猫", 2, 3⟩, ⟨"犬", 1, 2⟩] neko
      (by decide) (by decide) (by decide)).1⟩

/-! ## Distinct words -/

theorem processToken_nodup (data : List Entry) (w : Token)
    (hnd : (data.map Entry.word).Nodup) : ((processToken data w).map Entry.word).Nodup := by
  cases h : admitted w with
  | true =>
    rw [processToken_admitted data w h]
    exact mergeScan_nodup _ _ hnd
  | false =>
    rw [processToken_rejected data w h]
    exact hnd

theorem mergeTokens_nodup (data : List Entry) (tokens : List Token)
    (hnd : (data.map Entry.word).Nodup) :
    ((mergeTokens data tokens).map Entry.word).Nodup := by
  unfold mergeTokens
  induction tokens generalizing data with
  | nil => exact hnd
  | cons w ws ih =>
    rw [List.foldl_cons]
    exact ih _ (processToken_nodup data w hnd)

theorem map_word_aged (data : List Entry) :
    (data.map aged).map Entry.word = data.map Entry.word := by
  rw [List.map_map]
  rfl

theorem updateWordCountData_nodup (data : List Entry) (tokens : List Token)
    (hnd : (data.map Entry.word).Nodup) :
    ((updateWordCountData data tokens).map Entry.word).Nodup := by
  rw [updateWordCountData_eq]
  have h1 : (((mergeTokens data tokens).map aged).map Entry.word).Nodup := by
    rw [map_word_aged]
    exact mergeTokens_nodup data tokens hnd
  exact List.Nodup.sublist (List.Sublist.map _ (evict_sublist _ _)) h1

/-- C5: every table reachable from the initial table by cycles of `updateWordCountData`
holds each word in at most one entry, and a cycle applied to any table with pairwise
distinct words yields a table with pairwise distinct words. -/
theorem reachable_words_nodup (data : List Entry) (tokens : List Token) :
    (Reachable data → (data.map Entry.word).Nodup)
    ∧ ((data.map Entry.word).Nodup →
        ((updateWordCountData data tokens).map Entry.word).Nodup) := by
  refine ⟨?_, updateWordCountData_nodup data tokens⟩
  intro hr
  induction hr with
  | init => decide
  | cycle d toks _ ih => exact updateWordCountData_nodup d toks ih

theorem reachable_words_nodup_witness :
    Reachable (updateWordCountData wordCountData [neko, inu, neko])
    ∧ ((updateWordCountData wordCountData [neko, inu, neko]).map Entry.word).Nodup
    ∧ ((updateWordCountData (updateWordCountData wordCountData [neko, inu, neko])
          [inu]).map Entry.word).Nodup :=
  ⟨Reachable.cycle _ _ Reachable.init,
   (reachable_words_nodup (updateWordCountData wordCountData [neko, inu, neko]) []).1
     (Reachable.cycle _ _ Reachable.init),
   (reachable_words_nodup (updateWordCountData wordCountData [neko, inu, neko]) [inu]).2
     ((reachable_words_nodup (updateWordCountData wordCountData [neko, inu, neko]) []).1
       (Reachable.cycle _ _ Reachable.init))⟩

/-! ## Elapsed after a cycle -/

theorem updateWordCountData_scan (data : List Entry) (tokens : List Token) :
    updateWordCountData data tokens
      = evict (ageLoop (tokens.foldl processTokenScan data)).1
          (ageLoop (tokens.foldl processTokenScan data)).2 := by
  unfold updateWordCountData
  rw [mergeTokens_eq]

theorem mergeTokens_concat (data : List Entry) (ws : List Token) (w : Token) :
    mergeTokens data (ws ++ [w]) = processToken (mergeTokens data ws) w := by
  unfold mergeTokens
  rw [List.foldl_append]
  rfl

theorem merged_elapsed_zero (data : List Entry) (hnd : (data.map Entry.word).Nodup)
    (tokens : List Token) :
    ∀ e ∈ mergeTokens data tokens,
      (∃ w ∈ tokens, admitted w = true ∧ w.basic_form = e.word) → e.elapsed = 0 := by
  induction tokens using List.reverseRecOn with
  | nil =>
    intro e _ h
    obtain ⟨w, hw, _⟩ := h
    simp at hw
  | append_singleton ws w ih =>
    intro e he hex
    rw [mergeTokens_concat] at he
    have hndM := mergeTokens_nodup data ws hnd
    obtain ⟨x, hx, hxa, hxw⟩ := hex
    cases hadm : admitted w with
    | false =>
      rw [processToken_rejected _ w hadm] at he
      have hxws : x ∈ ws := by
        rcases List.mem_append.mp hx with h | h
        · exact h
        · rw [List.mem_singleton] at h
          rw [h, hadm] at hxa
          exact absurd hxa (by decide)
      exact ih e he ⟨x, hxws, hxa, hxw⟩
    | true =>
      rw [processToken_admitted _ w hadm] at he
      have key : e.word ≠ w.basic_form → e ∈ mergeTokens data ws → e.elapsed = 0 := by
        intro hne hmem
        have hxws : x ∈ ws := by
          rcases List.mem_append.mp hx with h | h
          · exact h
          · rw [List.mem_singleton] at h
            rw [h] at hxw
            exact absurd hxw.symm hne
        exact ih e hmem ⟨x, hxws, hxa, hxw⟩
      by_cases hmem : w.basic_form ∈ (mergeTokens data ws).map Entry.word
      · rw [mergeScan_mem_nodup _ _ hndM hmem] at he
        obtain ⟨y, hy, hye⟩ := List.mem_map.mp he
        by_cases hyw : y.word = w.basic_form
        · rw [if_pos hyw] at hye
          rw [← hye]
          rfl
        · rw [if_neg hyw] at hye
          rw [hye] at hyw hy
          exact key hyw hy
      · have hall : ∀ y ∈ mergeTokens data ws, y.word ≠ w.basic_form := by
          intro y hy hyw
          exact hmem (by rw [← hyw]; exact List.mem_map_of_mem _ hy)
        by_cases hnil : mergeTokens data ws = []
        · rw [hnil, mergeScan_nil] at he
          simp at he
        · rw [mergeScan_not_mem _ _ hnil hall] at he
          rcases List.mem_append.mp he with h | h
          · exact key (hall e h) h
          · rw [List.mem_singleton] at h
            rw [h]

theorem find_cons_pos (p : Entry → Bool) (x : Entry) (l : List Entry) (h : p x = true) :
    (x :: l).find? p = some x := by
  rw [List.find?_cons, h]

theorem find_cons_neg (p : Entry → Bool) (x : Entry) (l : List Entry) (h : ¬ p x = true) :
    (x :: l).find? p = l.find? p := by
  rw [List.find?_cons, Bool.not_eq_true _ |>.mp h]

theorem find_some_holds (p : Entry → Bool) (l : List Entry) (a : Entry)
    (h : l.find? p = some a) : p a = true :=
  List.find?_some h

theorem find_some_mem (p : Entry → Bool) (l : List Entry) (a : Entry)
    (h : l.find? p = some a) : a ∈ l :=
  List.mem_of_find?_eq_some h

theorem find_none_holds (p : Entry → Bool) (l : List Entry) (h : l.find? p = none) :
    ∀ x ∈ l, ¬ p x = true :=
  List.find?_eq_none.mp h

theorem find_mergeScan_other (b c : String) (hcb : c ≠ b) (M : List Entry) :
    (mergeScan c M).find? (fun e => decide (e.word = b))
      = M.find? (fun e => decide (e.word = b)) := by
  induction M with
  | nil => rfl
  | cons x rest ih =>
    by_cases hx : x.word = c
    · have h1 : ¬ (decide (x.word = b) = true) := by
        simpa using fun h => hcb (hx.symm.trans h)
      have h2 : ¬ (decide ((bump x).word = b) = true) := h1
      rw [mergeScan_hit c x rest hx, find_cons_neg (fun x => decide (x.word = b)) _ _ h2, find_cons_neg (fun x => decide (x.word = b)) _ _ h1]
    · cases rest with
      | nil =>
        rw [mergeScan_miss_last c x hx]
        have h3 : ¬ (decide ((⟨c, 2, 0⟩ : Entry).word = b) = true) := by simpa using hcb
        by_cases hxb : decide (x.word = b) = true
        · rw [find_cons_pos (fun x => decide (x.word = b)) _ _ hxb, find_cons_pos (fun x => decide (x.word = b)) _ _ hxb]
        · rw [find_cons_neg (fun x => decide (x.word = b)) _ _ hxb, find_cons_neg (fun x => decide (x.word = b)) _ _ hxb,
            find_cons_neg (fun x => decide (x.word = b)) _ _ h3]
      | cons e2 r =>
        rw [mergeScan_miss c x e2 r hx]
        by_cases hxb : decide (x.word = b) = true
        · rw [find_cons_pos (fun x => decide (x.word = b)) _ _ hxb, find_cons_pos (fun x => decide (x.word = b)) _ _ hxb]
        · rw [find_cons_neg (fun x => decide (x.word = b)) _ _ hxb, find_cons_neg (fun x => decide (x.word = b)) _ _ hxb, ih]

theorem find_mergeScan_same (b : String) (M : List Entry) (e : Entry)
    (h : (mergeScan b M).find? (fun x => decide (x.word = b)) = some e) : e.elapsed = 0 := by
  induction M with
  | nil => exact absurd h (by rw [mergeScan_nil]; simp)
  | cons x rest ih =>
    by_cases hx : x.word = b
    · have hb : decide ((bump x).word = b) = true := by simpa using hx
      rw [mergeScan_hit b x rest hx, find_cons_pos (fun x => decide (x.word = b)) _ _ hb] at h
      rw [← Option.some.inj h]
      rfl
    · have hxb : ¬ (decide (x.word = b) = true) := by simpa using hx
      cases rest with
      | nil =>
        have hn : decide ((⟨b, 2, 0⟩ : Entry).word = b) = true := by simp
        rw [mergeScan_miss_last b x hx, find_cons_neg (fun x => decide (x.word = b)) _ _ hxb,
          find_cons_pos (fun x => decide (x.word = b)) _ _ hn] at h
        rw [← Option.some.inj h]
      | cons e2 r =>
        rw [mergeScan_miss b x e2 r hx, find_cons_neg (fun x => decide (x.word = b)) _ _ hxb] at h
        exact ih h

theorem merged_first_elapsed_zero (data : List Entry) (tokens : List Token) (b : String)
    (hex : ∃ w ∈ tokens, admitted w = true ∧ w.basic_form = b) (e : Entry)
    (h : (mergeTokens data tokens).find? (fun x => decide (x.word = b)) = some e) :
    e.elapsed = 0 := by
  induction tokens using List.reverseRecOn with
  | nil =>
    obtain ⟨w, hw, _⟩ := hex
    simp at hw
  | append_singleton ws w ih =>
    rw [mergeTokens_concat] at h
    obtain ⟨x, hx, hxa, hxw⟩ := hex
    cases hadm : admitted w with
    | false =>
      rw [processToken_rejected _ w hadm] at h
      have hxws : x ∈ ws := by
        rcases List.mem_append.mp hx with h' | h'
        · exact h'
        · rw [List.mem_singleton] at h'
          rw [h', hadm] at hxa
          exact absurd hxa (by decide)
      exact ih ⟨x, hxws, hxa, hxw⟩ h
    | true =>
      rw [processToken_admitted _ w hadm] at h
      by_cases hwb : w.basic_form = b
      · rw [hwb] at h
        exact find_mergeScan_same b _ e h
      · rw [find_mergeScan_other b w.basic_form hwb] at h
        have hxws : x ∈ ws := by
          rcases List.mem_append.mp hx with h' | h'
          · exact h'
          · rw [List.mem_singleton] at h'
            rw [h'] at hxw
            exact absurd hxw hwb
        exact ih ⟨x, hxws, hxa, hxw⟩ h

theorem find_map_aged (b : String) (M : List Entry) :
    (M.map aged).find? (fun x => decide (x.word = b))
      = (M.find? (fun x => decide (x.word = b))).map aged := by
  induction M with
  | nil => rfl
  | cons x rest ih =>
    by_cases hxb : decide (x.word = b) = true
    · have h2 : decide ((aged x).word = b) = true := hxb
      rw [List.map_cons, find_cons_pos (fun x => decide (x.word = b)) _ _ h2, find_cons_pos (fun x => decide (x.word = b)) _ _ hxb]
      rfl
    · have h2 : ¬ (decide ((aged x).word = b) = true) := hxb
      rw [List.map_cons, find_cons_neg (fun x => decide (x.word = b)) _ _ h2, find_cons_neg (fun x => decide (x.word = b)) _ _ hxb, ih]

theorem find_filter_kept (b : String) (k : Entry → Bool) (l : List Entry) (f : Entry)
    (hf : l.find? (fun x => decide (x.word = b)) = some f) (hk : k f = true) :
    (l.filter k).find? (fun x => decide (x.word = b)) = some f := by
  induction l with
  | nil => simp at hf
  | cons x rest ih =>
    by_cases hxb : decide (x.word = b) = true
    · rw [find_cons_pos (fun x => decide (x.word = b)) _ _ hxb] at hf
      have hxf : x = f := Option.some.inj hf
      rw [hxf] at hxb
      rw [hxf, List.filter_cons, if_pos hk, find_cons_pos (fun x => decide (x.word = b)) _ _ hxb]
    · rw [find_cons_neg (fun x => decide (x.word = b)) _ _ hxb] at hf
      rw [List.filter_cons]
      split
      · rw [find_cons_neg (fun x => decide (x.word = b)) _ _ hxb]
        exact ih hf
      · exact ih hf

theorem first_merged_elapsed_one (data : List Entry) (tokens : List Token) (b : String)
    (hex : ∃ w ∈ tokens, admitted w = true ∧ w.basic_form = b) (e : Entry)
    (h : (updateWordCountData data tokens).find? (fun x => decide (x.word = b)) = some e) :
    e.elapsed = 1 := by
  have hfirst : ∀ f, ((mergeTokens data tokens).map aged).find?
      (fun x => decide (x.word = b)) = some f → f.elapsed = 1 := by
    intro f hf
    rw [find_map_aged] at hf
    cases hM : (mergeTokens data tokens).find? (fun x => decide (x.word = b)) with
    | none =>
      rw [hM] at hf
      exact absurd hf (by simp)
    | some f0 =>
      rw [hM] at hf
      have h0 : f0.elapsed = 0 := merged_first_elapsed_zero data tokens b hex f0 hM
      rw [← Option.some.inj hf]
      show f0.elapsed + 1 = 1
      rw [h0]
  rw [updateWordCountData_eq] at h
  unfold evict at h
  split at h
  · have heb : decide (e.word = b) = true := find_some_holds (fun x => decide (x.word = b)) _ e h
    have hmem := List.mem_filter.mp (find_some_mem (fun x => decide (x.word = b)) _ e h)
    obtain ⟨x, _, hxe⟩ := List.mem_map.mp hmem.1
    have hge : 1 ≤ e.elapsed := by
      rw [← hxe]
      exact Nat.le_add_left 1 x.elapsed
    cases hA : ((mergeTokens data tokens).map aged).find? (fun x => decide (x.word = b)) with
    | none =>
      exact absurd heb (find_none_holds (fun x => decide (x.word = b)) _ hA e hmem.1)
    | some f =>
      have hf1 : f.elapsed = 1 := hfirst f hA
      cases hk : ltMax f.elapsed
          (d3max (((mergeTokens data tokens).map aged).map Entry.elapsed)) with
      | true =>
        rw [find_filter_kept b _ _ f hA hk] at h
        rw [← Option.some.inj h]
        exact hf1
      | false =>
        exfalso
        have hke := hmem.2
        rw [hf1] at hk
        cases hm : d3max (((mergeTokens data tokens).map aged).map Entry.elapsed) with
        | none =>
          rw [hm] at hke
          exact Bool.false_ne_true hke
        | some m =>
          rw [hm] at hk hke
          have h1 : e.elapsed < m := of_decide_eq_true hke
          have h2 : ¬ 1 < m := of_decide_eq_false hk
          omega
  · exact hfirst e h

/-- C6: after one cycle of `updateWordCountData` every entry of the table has `elapsed` at
least 1, for every table and batch. The entry that the cycle merged for an admitted token is
the first entry holding the token's basic form (the loop breaks at the first match and
pushes only when no entry matches); in the table after the cycle that entry has `elapsed`
exactly 1, for every table and batch. On a table with pairwise distinct words, so on every
reachable table, every entry whose word is the basic form of an admitted token of the batch
has `elapsed` exactly 1. -/
theorem elapsed_after_cycle (data : List Entry) (tokens : List Token) :
    (∀ e ∈ updateWordCountData data tokens, 1 ≤ e.elapsed)
    ∧ (∀ w ∈ tokens, admitted w = true → ∀ e,
        (updateWordCountData data tokens).find? (fun x => decide (x.word = w.basic_form))
          = some e → e.elapsed = 1)
    ∧ ((data.map Entry.word).Nodup →
        ∀ e ∈ updateWordCountData data tokens,
          (∃ w ∈ tokens, admitted w = true ∧ w.basic_form = e.word) → e.elapsed = 1)
    ∧ (Reachable data →
        ∀ e ∈ updateWordCountData data tokens,
          (∃ w ∈ tokens, admitted w = true ∧ w.basic_form = e.word) → e.elapsed = 1) := by
  have hsub : ∀ e ∈ updateWordCountData data tokens,
      ∃ x ∈ mergeTokens data tokens, e = aged x := by
    intro e he
    rw [updateWordCountData_eq] at he
    obtain ⟨x, hx, hxe⟩ := List.mem_map.mp ((evict_sublist _ _).subset he)
    exact ⟨x, hx, hxe.symm⟩
  have hnodup : (data.map Entry.word).Nodup →
      ∀ e ∈ updateWordCountData data tokens,
        (∃ w ∈ tokens, admitted w = true ∧ w.basic_form = e.word) → e.elapsed = 1 := by
    intro hnd e he hex
    obtain ⟨x, hx, rfl⟩ := hsub e he
    have h0 : x.elapsed = 0 := merged_elapsed_zero data hnd tokens x hx hex
    show x.elapsed + 1 = 1
    rw [h0]
  refine ⟨?_, ?_, hnodup, ?_⟩
  · intro e he
    obtain ⟨x, _, rfl⟩ := hsub e he
    exact Nat.le_add_left 1 x.elapsed
  · intro w hw hadm e he
    exact first_merged_elapsed_one data tokens w.basic_form ⟨w, hw, hadm, rfl⟩ e he
  · intro hr
    apply hnodup
    clear hnodup hsub
    induction hr with
    | init => decide
    | cycle d toks _ ih => exact updateWordCountData_nodup d toks ih

theorem elapsed_after_cycle_witness :
    Reachable (updateWordCountData wordCountData [neko, inu])
    ∧ updateWordCountData (updateWordCountData wordCountData [neko, inu]) [inu, neko, inu]
        = [⟨"", 1, 3⟩, ⟨"猫", 3, 1⟩, ⟨"犬", 4, 1⟩]
    ∧ (⟨"犬", 4, 1⟩ : Entry).elapsed = 1 :=
  ⟨Reachable.cycle _ _ Reachable.init,
   by simp only [updateWordCountData_scan]; decide,
   (elapsed_after_cycle (updateWordCountData wordCountData [neko, inu])
      [inu, neko, inu]).2.2.2 (Reachable.cycle _ _ Reachable.init) ⟨"犬", 4, 1⟩
     (by simp only [updateWordCountData_scan]; decide) ⟨inu, by decide, by decide, rfl⟩⟩

/-! ## New terms and the empty table -/

theorem processToken_new_term (data : List Entry) (w : Token) (hne : data ≠ [])
    (hadm : admitted w = true) (hnew : w.basic_form ∉ data.map Entry.word) :
    processToken data w = data ++ [⟨w.basic_form, 2, 0⟩] := by
  rw [processToken_admitted data w hadm]
  apply mergeScan_not_mem _ _ hne
  intro e he hw
  exact hnew (by rw [← hw]; exact List.mem_map_of_mem _ he)

theorem filter_mergeScan_other (b c : String) (hcb : c ≠ b) (M : List Entry) :
    (mergeScan c M).filter (fun e => decide (e.word = b))
      = M.filter (fun e => decide (e.word = b)) := by
  induction M with
  | nil => rfl
  | cons e rest ih =>
    by_cases he : e.word = c
    · have h1 : ¬ e.word = b := fun h => hcb (he.symm.trans h)
      have h2 : ¬ (bump e).word = b := h1
      rw [mergeScan_hit c e rest he, List.filter_cons, List.filter_cons]
      simp only [h1, h2, decide_False, Bool.false_eq_true, if_false]
    · cases rest with
      | nil =>
        rw [mergeScan_miss_last c e he]
        simp [List.filter_cons, hcb]
      | cons e2 r =>
        rw [mergeScan_miss c e e2 r he, List.filter_cons, ih]
        conv_rhs => rw [List.filter_cons]

theorem filter_mergeScan_new (b : String) (M : List Entry) (hne : M ≠ [])
    (h : M.filter (fun e => decide (e.word = b)) = []) :
    (mergeScan b M).filter (fun e => decide (e.word = b)) = [⟨b, 2, 0⟩] := by
  have hall : ∀ e ∈ M, e.word ≠ b := by
    intro e he hw
    have : e ∈ M.filter (fun e => decide (e.word = b)) :=
      List.mem_filter.mpr ⟨he, by simpa using hw⟩
    rw [h] at this
    simp at this
  rw [mergeScan_not_mem b M hne hall, List.filter_append, h]
  simp [List.filter_cons]

theorem filter_mergeScan_old (b : String) (x : Entry) (M : List Entry)
    (h : M.filter (fun e => decide (e.word = b)) = [x]) :
    (mergeScan b M).filter (fun e => decide (e.word = b)) = [bump x] := by
  induction M with
  | nil => simp at h
  | cons e rest ih =>
    by_cases he : e.word = b
    · have hb : (bump e).word = b := he
      rw [List.filter_cons, if_pos (by simpa using he)] at h
      rw [mergeScan_hit b e rest he, List.filter_cons, if_pos (by simpa using hb)]
      rw [List.cons.injEq] at h
      rw [h.2, h.1]
    · rw [List.filter_cons, if_neg (by simpa using he)] at h
      cases rest with
      | nil => simp at h
      | cons e2 r =>
        rw [mergeScan_miss b e e2 r he, List.filter_cons, if_neg (by simpa using he)]
        exact ih h

theorem mergeScan_words_append (c : String) (M : List Entry) :
    ∃ s, (mergeScan c M).map Entry.word = M.map Entry.word ++ s := by
  rw [mergeScan_words]
  split
  · rename_i h
    exact ⟨[], by rw [h]; rfl⟩
  · split
    · exact ⟨[], (List.append_nil _).symm⟩
    · exact ⟨[c], rfl⟩

theorem admittedCount_concat (b : String) (ws : List Token) (w : Token) :
    admittedCount b (ws ++ [w])
      = admittedCount b ws
        + (if admitted w = true ∧ w.basic_form = b then 1 else 0) := by
  unfold admittedCount
  rw [List.filter_append, List.length_append]
  congr 1
  by_cases h : admitted w = true ∧ w.basic_form = b
  · rw [if_pos h]
    simp [List.filter_cons, h.1, h.2]
  · rw [if_neg h]
    have : (admitted w && decide (w.basic_form = b)) = false := by
      rw [Bool.and_eq_false_iff]
      by_cases ha : admitted w = true
      · right
        simpa using fun hb => h ⟨ha, hb⟩
      · left
        simpa using ha
    simp [List.filter_cons, this]

theorem mergeTokens_invariant (b : String) (t : List Entry) (hne : t ≠ [])
    (hnew : b ∉ t.map Entry.word) (tokens : List Token) :
    (∃ s, (mergeTokens t tokens).map Entry.word = t.map Entry.word ++ s)
    ∧ (admittedCount b tokens = 0 →
        (mergeTokens t tokens).filter (fun e => decide (e.word = b)) = [])
    ∧ (∀ k, admittedCount b tokens = k + 1 →
        (mergeTokens t tokens).filter (fun e => decide (e.word = b)) = [⟨b, k + 2, 0⟩]) := by
  induction tokens using List.reverseRecOn with
  | nil =>
    refine ⟨⟨[], (List.append_nil _).symm⟩, ?_, ?_⟩
    · intro _
      apply List.filter_eq_nil_iff.mpr
      intro e he
      have : e.word ≠ b := fun hw => hnew (by rw [← hw]; exact List.mem_map_of_mem _ he)
      simpa using this
    · intro k hk
      simp [admittedCount] at hk
  | append_singleton ws w ih =>
    obtain ⟨⟨s, hs⟩, ih0, ihk⟩ := ih
    have hMne : mergeTokens t ws ≠ [] := by
      intro h
      rw [h] at hs
      cases t with
      | nil => exact hne rfl
      | cons a r => simp at hs
    rw [mergeTokens_concat, admittedCount_concat]
    cases hadm : admitted w with
    | false =>
      rw [processToken_rejected _ w hadm]
      have hif : ¬ (false = true ∧ w.basic_form = b) := fun h => absurd h.1 (by decide)
      rw [if_neg hif, Nat.add_zero]
      exact ⟨⟨s, hs⟩, ih0, ihk⟩
    | true =>
      rw [processToken_admitted _ w hadm]
      have hpre : ∃ s2, (mergeScan w.basic_form (mergeTokens t ws)).map Entry.word
          = t.map Entry.word ++ s2 := by
        obtain ⟨s1, hs1⟩ := mergeScan_words_append w.basic_form (mergeTokens t ws)
        exact ⟨s ++ s1, by rw [hs1, hs, List.append_assoc]⟩
      by_cases hwb : w.basic_form = b
      · have hif : (true = true ∧ w.basic_form = b) := ⟨rfl, hwb⟩
        rw [if_pos hif, hwb]
        refine ⟨by rw [← hwb]; exact hpre, fun h => absurd h (Nat.succ_ne_zero _), ?_⟩
        intro k hk
        have hk2 : admittedCount b ws = k := Nat.succ.inj hk
        cases k with
        | zero => exact filter_mergeScan_new b _ hMne (ih0 hk2)
        | succ j => exact filter_mergeScan_old b _ _ (ihk j hk2)
      · have hif : ¬ (true = true ∧ w.basic_form = b) := fun h => hwb h.2
        rw [if_neg hif, Nat.add_zero, filter_mergeScan_other b w.basic_form hwb]
        exact ⟨hpre, ih0, ihk⟩

/-- The merge loop on new terms, in general: on a non-empty table, a term that the table
does not hold and that the batch admits `n` times, `n` at least 1, is held after the merge
by exactly one entry, with count `n + 1` and `elapsed` 0, and the words of the prior entries
still come first, in order. -/
theorem mergeTokens_new_term (b : String) (t : List Entry) (tokens : List Token) (n : Nat)
    (hne : t ≠ []) (hnew : b ∉ t.map Entry.word)
    (hn : admittedCount b tokens = n) (hpos : 1 ≤ n) :
    (mergeTokens t tokens).filter (fun e => decide (e.word = b)) = [⟨b, n + 1, 0⟩]
    ∧ ∃ s, (mergeTokens t tokens).map Entry.word = t.map Entry.word ++ s := by
  obtain ⟨hpre, _, hk⟩ := mergeTokens_invariant b t hne hnew tokens
  refine ⟨?_, hpre⟩
  obtain ⟨k, rfl⟩ : ∃ k, n = k + 1 := ⟨n - 1, by omega⟩
  exact hk k hn

/-- C1 at its own example: on the initial table the batch 猫, 猫, 犬 of admitted nouns
leaves the merge loop with 猫 at count 3 and 犬 at count 2 (the specification says 2 and 1), and a
single first observation of 猫 creates the entry with count 2 (the specification says 1): the entry
pushed with count 1 is visited by the same loop run and incremented. -/
theorem mergeTokens_new_terms_counted_twice :
    admitted neko = true ∧ admitted inu = true
    ∧ mergeTokens wordCountData [neko, neko, inu]
        = [⟨"", 1, 1⟩, ⟨"猫", 3, 0⟩, ⟨"犬", 2, 0⟩]
    ∧ mergeTokens wordCountData [neko] = [⟨"", 1, 1⟩, ⟨"猫", 2, 0⟩]
    ∧ mergeLoop "猫" wordCountData 0 = [⟨"", 1, 1⟩, ⟨"猫", 2, 0⟩] := by
  refine ⟨by decide, by decide, ?_, ?_, ?_⟩
  · rw [mergeTokens_eq]
    decide
  · rw [mergeTokens_eq]
    decide
  · rw [mergeLoop_eq]
    decide

/-- C2 on the code: on the empty table the merge loop body never runs, so a cycle leaves
the table empty whatever the batch holds; an admitted noun is not inserted. -/
theorem updateWordCountData_empty_stays_empty :
    admitted neko = true
    ∧ mergeLoop "猫" [] 0 = []
    ∧ updateWordCountData [] [neko] = []
    ∧ ∀ tokens : List Token, updateWordCountData [] tokens = [] := by
  have hm : ∀ tokens : List Token, mergeTokens [] tokens = [] := by
    intro tokens
    induction tokens using List.reverseRecOn with
    | nil => rfl
    | append_singleton ws w ih =>
      rw [mergeTokens_concat, ih]
      cases hadm : admitted w with
      | false => exact processToken_rejected [] w hadm
      | true => rw [processToken_admitted [] w hadm, mergeScan_nil]
  have hall : ∀ tokens : List Token, updateWordCountData [] tokens = [] := by
    intro tokens
    rw [updateWordCountData_eq, hm]
    rfl
  refine ⟨by decide, ?_, hall [neko], hall⟩
  rw [mergeLoop_eq]
  rfl

/-! ## Eviction of the whole table -/

/-- C10: two batches of admitted nouns empty the table. From the initial table, 39
occurrences of 猫 bring the counts to 1 + 40 and evict the initial entry, which alone has
the maximal `elapsed`; the table is then the single entry 猫. One more 猫 leaves, after
aging, a table whose entries all have the maximal `elapsed` 1 with counts summing to 41,
and the cycle removes them all. The empty table is therefore reachable. -/
theorem eviction_can_empty_table :
    (∃ batches : List (List Token),
        (∀ batch ∈ batches, ∀ w ∈ batch, admitted w = true)
        ∧ batches.foldl updateWordCountData wordCountData = [])
    ∧ (∀ w ∈ List.replicate 39 neko ++ [neko], admitted w = true)
    ∧ updateWordCountData wordCountData (List.replicate 39 neko) = [⟨"猫", 40, 1⟩]
    ∧ (ageLoop (mergeTokens [⟨"猫", 40, 1⟩] [neko])).1 = [⟨"猫", 41, 1⟩]
    ∧ (ageLoop (mergeTokens [⟨"猫", 40, 1⟩] [neko])).2 = 41
    ∧ updateWordCountData (updateWordCountData wordCountData (List.replicate 39 neko)) [neko]
        = []
    ∧ Reachable [] := by
  have h1 : updateWordCountData wordCountData (List.replicate 39 neko) = [⟨"猫", 40, 1⟩] := by
    rw [updateWordCountData_scan]
    decide
  have h2 : updateWordCountData [⟨"猫", 40, 1⟩] [neko] = [] := by
    rw [updateWordCountData_scan]
    decide
  refine ⟨⟨[List.replicate 39 neko, [neko]], by decide, ?_⟩, by decide, h1, ?_, ?_, ?_, ?_⟩
  · simp only [List.foldl_cons, List.foldl_nil]
    rw [h1, h2]
  · rw [mergeTokens_eq]
    decide
  · rw [mergeTokens_eq]
    decide
  · rw [h1, h2]
  · have hr := Reachable.cycle _ [neko]
      (Reachable.cycle wordCountData (List.replicate 39 neko) Reachable.init)
    rw [h1, h2] at hr
    exact hr

/-! ## The size mapping -/

theorem scaleLinear_font (flat : ℚ) (m x : Nat) (hm : 1 ≤ m) :
    scaleLinear flat 0 m 10 130 x = 10 + (130 - 10) * (x : ℚ) / (m : ℚ) := by
  have hm0 : (m : ℚ) ≠ 0 := by
    have : (1 : ℚ) ≤ (m : ℚ) := by exact_mod_cast hm
    linarith
  unfold scaleLinear
  simp only [sub_zero, if_neg hm0]
  field_simp
  ring

theorem getWordArray_of_max (flat : ℚ) (data : List Entry) (m : Nat)
    (hmax : d3max (data.map Entry.count) = some m) (hm : 1 ≤ m) :
    getWordArray flat data
      = data.map (fun e =>
          ⟨e.word, some (10 + (130 - 10) * (e.count : ℚ) / (m : ℚ)), e.elapsed⟩) := by
  unfold getWordArray
  simp only [hmax]
  apply List.map_congr_left
  intro e _
  rw [scaleLinear_font flat m e.count hm]

/-- C8: for a table whose counts are all at least 1, `getWordArray` maps the table entry by
entry, in order: the record of an entry has its word, its `elapsed` and the size
`10 + (130 - 10) * count / countMax`, where `countMax` is a count of the table that no count
exceeds. The empty table gives the empty sequence and a single entry gets size 130. -/
theorem getWordArray_linear (flat : ℚ) (data : List Entry)
    (h : ∀ e ∈ data, 1 ≤ e.count) :
    getWordArray flat [] = []
    ∧ (getWordArray flat data).length = data.length
    ∧ (data ≠ [] →
        ∃ countMax : Nat, (∃ e ∈ data, e.count = countMax)
          ∧ (∀ e ∈ data, e.count ≤ countMax)
          ∧ getWordArray flat data
              = data.map (fun e =>
                  ⟨e.word, some (10 + (130 - 10) * (e.count : ℚ) / (countMax : ℚ)),
                    e.elapsed⟩))
    ∧ (∀ e, data = [e] → getWordArray flat data = [⟨e.word, some 130, e.elapsed⟩]) := by
  have hlen : (getWordArray flat data).length = data.length := by
    unfold getWordArray
    simp only [List.length_map]
  have hmain : data ≠ [] →
      ∃ countMax : Nat, (∃ e ∈ data, e.count = countMax)
        ∧ (∀ e ∈ data, e.count ≤ countMax)
        ∧ getWordArray flat data
            = data.map (fun e =>
                ⟨e.word, some (10 + (130 - 10) * (e.count : ℚ) / (countMax : ℚ)),
                  e.elapsed⟩) := by
    intro hne
    cases data with
    | nil => exact absurd rfl hne
    | cons e0 rest =>
      obtain ⟨m, h1, h2, h3⟩ := d3max_cons e0.count (rest.map Entry.count)
      rw [← List.map_cons] at h1 h2 h3
      obtain ⟨x, hx, hxm⟩ := List.mem_map.mp h3
      have hm : 1 ≤ m := by
        rw [← hxm]
        exact h x hx
      exact ⟨m, ⟨x, hx, hxm⟩, fun e he => h2 _ (List.mem_map_of_mem _ he),
        getWordArray_of_max flat _ m h1 hm⟩
  refine ⟨rfl, hlen, hmain, ?_⟩
  intro e he
  subst he
  have h1 : 1 ≤ e.count := h e (List.mem_singleton_self e)
  rw [getWordArray_of_max flat [e] e.count rfl h1]
  have hc : (e.count : ℚ) ≠ 0 := by
    have : (1 : ℚ) ≤ (e.count : ℚ) := by exact_mod_cast h1
    linarith
  have hs : (10 : ℚ) + (130 - 10) * (e.count : ℚ) / (e.count : ℚ) = 130 := by
    rw [mul_div_assoc, div_self hc]
    norm_num
  simp only [List.map_cons, List.map_nil, hs]

theorem getWordArray_linear_witness :
    (∀ e ∈ [(⟨"", 1, 2⟩ : Entry), ⟨"猫", 3, 1⟩, ⟨"犬", 2, 1⟩], 1 ≤ e.count)
    ∧ (getWordArray 0 [⟨"", 1, 2⟩, ⟨"猫", 3, 1⟩, ⟨"犬", 2, 1⟩]).length = 3 :=
  ⟨by decide,
   (getWordArray_linear 0 [⟨"", 1, 2⟩, ⟨"猫", 3, 1⟩, ⟨"犬", 2, 1⟩] (by decide)).2.1⟩

/-- C9 on the code: the scale has the domain from 0 to the largest count, so the least
frequent word of a table with counts 1 and 2 gets size 70, not `minFontSize` 10 (the most
frequent one gets 130). -/
theorem getWordArray_least_frequent_not_min (flat : ℚ) :
    getWordArray flat [⟨"a", 1, 1⟩, ⟨"b", 2, 1⟩]
      = [⟨"a", some 70, 1⟩, ⟨"b", some 130, 1⟩] := by
  rw [getWordArray_of_max flat _ 2 (by decide) (by decide)]
  simp only [List.map_cons, List.map_nil]
  norm_num

end WordCloud
